import Mathlib

/-! habe: secure backup decoder (`main.go`)

A shallow embedding of `CBCReader.Read` and of the structural checks of `main`,
followed by the properties of the decode pipeline proved over that embedding.

Conventions of the embedding

* a byte is a natural number (bytes are only copied, compared and xor-ed);
* a byte stream (`io.Reader`) is the list of the bytes it still has to deliver:
  reading removes a prefix, and a stream that has run out stays empty;
* SHA256 and the AES block functions are parameters (`Primitives`);
* a Go `error` is an `Option Err`, `none` standing for `nil`;
* a path or entry name is the list of its characters;
* `int64` sizes are integers: they are only compared and reduced modulo 16.
-/

namespace Habe

/-! ## Data model -/

/-- A byte of a Go `[]byte`. -/
abbrev Byte := Nat

/-- Block size of AES, `aes.BlockSize`. -/
def BlockSize : Nat := 16

/-- The cryptographic primitives, kept abstract: `sha256.Sum256` and the AES
block encryption and decryption under a key. -/
structure Primitives where
  sha256 : List Byte → List Byte
  aesEncrypt : List Byte → List Byte → List Byte
  aesDecrypt : List Byte → List Byte → List Byte

/-- The error values that `CBCReader.Read` can return. -/
inductive Err where
  | EOF
  | ErrUnexpectedEOF
  | bufferTooSmall
  | invalidIVSize
  | invalidPadding
  | keySize
  deriving DecidableEq, Repr

/-- The CBC decrypter of `cipher.NewCBCDecrypter`: the key of its block cipher
and the chaining value (the IV, then the last ciphertext block seen). -/
structure BlockMode where
  key : List Byte
  iv : List Byte
  deriving DecidableEq, Repr

/-- The Go struct `CBCReader`; `mode = none` is the nil block mode. -/
structure CBCReader where
  key : List Byte
  iv : List Byte
  reader : List Byte
  mode : Option BlockMode
  eof : Bool
  deriving DecidableEq, Repr

/-- What one call of `Read` leaves behind: the reader, the caller's buffer,
and the returned pair `(n, err)`. -/
structure ReadResult where
  r : CBCReader
  buf : List Byte
  n : Nat
  err : Option Err
  deriving DecidableEq, Repr

/-! ## Library functions used by `Read` -/

/-- The function `io.ReadFull(rd, buf)` for a buffer of `want` bytes: the rest of
the stream, the bytes read, their count and the error (`EOF` when nothing was
read, `ErrUnexpectedEOF` after a short read). -/
def ReadFull (rd : List Byte) (want : Nat) : List Byte × List Byte × Nat × Option Err :=
  let data := rd.take want
  let n := data.length
  let err :=
    if n ≥ want then none
    else if n = 0 then some Err.EOF
    else some Err.ErrUnexpectedEOF
  (rd.drop want, data, n, err)

/-- Go `append(arr[:len], xs...)` on a slice of the array `arr` whose capacity
is the whole array: the array afterwards and the slice returned. When the
capacity suffices the bytes are written into the array itself. -/
def goAppend (arr : List Byte) (len : Nat) (xs : List Byte) : List Byte × List Byte :=
  if len + xs.length ≤ arr.length then
    let arr1 := arr.take len ++ xs ++ arr.drop (len + xs.length)
    (arr1, arr1.take (len + xs.length))
  else
    (arr, arr.take len ++ xs)

/-- The loop `for round := 1; round <= 99; round++ { h = sha256.Sum256(h[:]) }`,
with the number of rounds left as argument. -/
def hashRounds (P : Primitives) : Nat → List Byte → List Byte
  | 0, h => h
  | rounds + 1, h => hashRounds P rounds (P.sha256 h)

/-- The function `aes.NewCipher`: only keys of 16, 24 or 32 bytes are accepted. -/
def NewCipher (key : List Byte) : Except Err (List Byte) :=
  if key.length = 16 ∨ key.length = 24 ∨ key.length = 32 then .ok key
  else .error Err.keySize

/-- Bytewise xor of two blocks. -/
def xorBytes (a b : List Byte) : List Byte :=
  List.zipWith (fun x y => x ^^^ y) a b

/-- CBC decryption of `blocks` whole blocks of `src` with chaining value `iv`:
the chaining value afterwards and the plaintext. -/
def cryptBlocksN (P : Primitives) (key : List Byte) :
    Nat → List Byte → List Byte → List Byte × List Byte
  | 0, iv, _ => (iv, [])
  | blocks + 1, iv, src =>
    let c := src.take BlockSize
    let p := xorBytes (P.aesDecrypt key c) iv
    let rest := cryptBlocksN P key blocks c (src.drop BlockSize)
    (rest.1, p ++ rest.2)

/-- The method `CryptBlocks(dst, src)` of the CBC decrypter on a source made of
whole blocks (the only sources `Read` passes, after its `n%aes.BlockSize`
check): the decrypter afterwards and the bytes written. -/
def CryptBlocks (P : Primitives) (m : BlockMode) (src : List Byte) : BlockMode × List Byte :=
  let out := cryptBlocksN P m.key (src.length / BlockSize) m.iv src
  ({ m with iv := out.1 }, out.2)

/-! ## `CBCReader.Read` -/

/-- Lines 39-56 of `Read`: the block mode to decrypt with. An existing mode is
kept; otherwise key and IV are derived from the passphrase and the IV seed. -/
def initMode (P : Primitives) (r : CBCReader) : Except Err BlockMode :=
  match r.mode with
  | some m => .ok m
  | none =>
    if r.iv.length < BlockSize then .error Err.invalidIVSize
    else
      let key := hashRounds P 99 (P.sha256 r.key)
      let app := goAppend key BlockSize (r.iv.take BlockSize)
      let key := app.1
      let iv := hashRounds P 99 (P.sha256 app.2)
      match NewCipher (key.take BlockSize) with
      | .error e => .error e
      | .ok block => .ok { key := block, iv := iv.take BlockSize }

/-- The method `CBCReader.Read`. -/
def Read (P : Primitives) (r : CBCReader) (buf : List Byte) : ReadResult :=
  if buf.length = 0 then ⟨r, buf, 0, none⟩
  else if r.eof then ⟨r, buf, 0, some Err.EOF⟩
  else if buf.length < BlockSize then ⟨r, buf, 0, some Err.bufferTooSmall⟩
  else
    match initMode P r with
    | .error e => ⟨r, buf, 0, some e⟩
    | .ok m =>
      let r := { r with mode := some m }
      let full := ReadFull r.reader ((buf.length / BlockSize) * BlockSize)
      let n := full.2.2.1
      let err := full.2.2.2
      let r := { r with reader := full.1 }
      let buf := full.2.1 ++ buf.drop n
      if n = 0 then ⟨r, buf, 0, some Err.EOF⟩
      else if n % BlockSize ≠ 0 then ⟨r, buf, 0, some Err.invalidPadding⟩
      else
        let r := if err ≠ none then { r with eof := true } else r
        let out := CryptBlocks P m (buf.take n)
        ⟨{ r with mode := some out.1 }, out.2 ++ buf.drop n, n, err⟩

/-- The reader after a sequence of pulls with the given buffers. -/
def afterPulls (P : Primitives) (r : CBCReader) (bufs : List (List Byte)) : CBCReader :=
  bufs.foldl (fun s b => (Read P s b).r) r

/-- A reader as `main` builds it: no block mode yet, not at end of stream. -/
def fresh (key seed stream : List Byte) : CBCReader :=
  { key := key, iv := seed, reader := stream, mode := none, eof := false }

/-! ## Key derivation as specified -/

/-- SHA256 applied 100 times in total, starting from the passphrase. -/
def specKeyFull (P : Primitives) (passphrase : List Byte) : List Byte :=
  P.sha256^[100] passphrase

/-- The AES key: the first 16 bytes of `keyFull`. -/
def specKey (P : Primitives) (passphrase : List Byte) : List Byte :=
  (specKeyFull P passphrase).take 16

/-- SHA256 applied 100 times in total, starting from `keyFull[0:16] ++ seed[0:16]`. -/
def specIVFull (P : Primitives) (passphrase seed : List Byte) : List Byte :=
  P.sha256^[100] ((specKeyFull P passphrase).take 16 ++ seed.take 16)

/-- The CBC IV: the first 16 bytes of `ivFull`. -/
def specIV (P : Primitives) (passphrase seed : List Byte) : List Byte :=
  (specIVFull P passphrase seed).take 16

/-! ## CBC encryption and draining a reader -/

/-- CBC encryption of `blocks` whole blocks of `plain` with chaining value `iv`. -/
def cbcEncryptN (P : Primitives) (key : List Byte) : Nat → List Byte → List Byte → List Byte
  | 0, _, _ => []
  | blocks + 1, iv, plain =>
    let c := P.aesEncrypt key (xorBytes (plain.take BlockSize) iv)
    c ++ cbcEncryptN P key blocks c (plain.drop BlockSize)

/-- AES-CBC encryption of a plaintext made of whole blocks under `(key, iv)`. -/
def cbcEncrypt (P : Primitives) (key iv plain : List Byte) : List Byte :=
  cbcEncryptN P key (plain.length / BlockSize) iv plain

/-- Pulls with the given buffers, one after the other, until a pull returns
zero bytes: the concatenation of the bytes returned (`buf[:n]` of each pull),
or `none` when the buffers run out before a pull returns zero bytes. -/
def drain (P : Primitives) (r : CBCReader) : List (List Byte) → Option (List Byte)
  | [] => none
  | b :: bufs =>
    let res := Read P r b
    if res.n = 0 then some []
    else (drain P res.r bufs).map (fun out => res.buf.take res.n ++ out)

/-! ## The checks of `main` -/

/-- A JSON value as `json.Unmarshal` stores it in an `any`. -/
inductive JSON where
  | null
  | bool (b : Bool)
  | number (text : String)
  | string (s : String)
  | array (xs : List JSON)
  | object (fields : List (String × JSON))

/-- The manifest `map[string]any`: the value stored under each key, if any. -/
abbrev Manifest := String → Option JSON

/-- The type assertion `manifest[name].(bool)`: value and `ok`. -/
def assertBool : Option JSON → Bool × Bool
  | some (JSON.bool b) => (b, true)
  | _ => (false, false)

/-- A flag of the manifest: `false`, overwritten by the field when the type
assertion to `bool` succeeds (lines 110-116). -/
def manifestFlag (manifest : Manifest) (name : String) : Bool :=
  let value := assertBool (manifest name)
  if value.2 then value.1 else false

/-- The function `os.IsPathSeparator` on Unix. -/
def IsPathSeparator (c : Char) : Bool := c = '/'

/-- The function `filepath.Base`: the last element of the path, trailing
separators removed first. -/
def Base (path : List Char) : List Char :=
  if path = [] then ['.']
  else
    let path := (path.reverse.dropWhile IsPathSeparator).reverse
    let path := (path.reverse.takeWhile (fun c => !IsPathSeparator c)).reverse
    if path = [] then ['/'] else path

/-- The fields of a `tar.Header` that `main` looks at before extraction. -/
structure Header where
  Name : List Char
  Size : Int

/-- The test of line 96 on the first entry: `true` rejects the archive. -/
def manifestEntryRejected (header : Header) : Bool :=
  Base header.Name != "backup.json".toList || decide (header.Size > 4 <<< 10)

/-- The test of line 125 on the second entry: `true` rejects the archive. -/
def blobEntryRejected (isProtected : Bool) (header : Header) : Bool :=
  decide (header.Size < 1 <<< 10) || (isProtected && Int.tmod header.Size 16 != 0)

/-- The errors `main` reports for the structure of an archive. -/
inductive MainErr where
  | invalidBackupArchive
  | invalidProtectedArchive
  deriving DecidableEq, Repr

/-- The 16 bytes `"SecureTar\x02\x00\x00\x00\x00\x00\x00"`. -/
def secureMagic : List Byte :=
  "SecureTar".toList.map Char.toNat ++ [2, 0, 0, 0, 0, 0, 0]

/-- Lines 132-138: the protected branch of `main` on the stream of the second
entry. The 48-byte array `secure` starts zeroed and is filled by `io.ReadFull`. -/
def openProtected (key : List Byte) (blob : List Byte) : Except MainErr CBCReader :=
  let full := ReadFull blob 48
  let secure := full.2.1 ++ List.replicate (48 - full.2.2.1) 0
  if full.2.2.2 ≠ none ∨ secure.take 16 ≠ secureMagic then
    .error MainErr.invalidProtectedArchive
  else
    .ok { key := key, iv := secure.drop 32, reader := full.1, mode := none, eof := false }

/-- The byte source handed to the next stage (gzip or the inner tar reader). -/
inductive Source where
  | plain (stream : List Byte)
  | cbc (r : CBCReader)

/-- What lines 96-139 of `main` establish about an archive. -/
structure Opened where
  isProtected : Bool
  compressed : Bool
  reader : Source

/-- Lines 96-139 of `main` for one archive, given the two outer headers, the
parsed manifest and the bytes of the second entry. The exits on a read or
JSON error (lines 92, 101, 106, 121) lie outside: the headers and the manifest
are taken as successfully read. -/
def openBackup (key : List Byte) (first : Header) (manifest : Manifest)
    (second : Header) (blob : List Byte) : Except MainErr Opened :=
  if manifestEntryRejected first then .error MainErr.invalidBackupArchive
  else
    let isProtected := manifestFlag manifest "protected"
    let compressed := manifestFlag manifest "compressed"
    if blobEntryRejected isProtected second then .error MainErr.invalidBackupArchive
    else if isProtected then
      match openProtected key blob with
      | .error e => .error e
      | .ok r => .ok ⟨isProtected, compressed, Source.cbc r⟩
    else .ok ⟨isProtected, compressed, Source.plain blob⟩

/-! ## Destination paths -/

/-- The function `strings.TrimPrefix`. -/
def TrimPrefix (s pre : List Char) : List Char :=
  if pre.isPrefixOf s then s.drop pre.length else s

/-- The backtracking of `filepath.Clean` on a `..` element: from index `w`,
step back while above `dotdot` and not on a separator. -/
def backtrack (out : List Char) (dotdot : Nat) : Nat → Nat
  | 0 => 0
  | w + 1 =>
    if w + 1 > dotdot && !IsPathSeparator (out.getD (w + 1) '/') then backtrack out dotdot w
    else w + 1

/-- The main loop of `filepath.Clean`: `path` is what is left to read, `out` the
buffer written so far; every round consumes at least one character. -/
def cleanLoop (rooted : Bool) : Nat → List Char → List Char → Nat → List Char
  | 0, _, out, _ => out
  | _ + 1, [], out, _ => out
  | fuel + 1, c :: rest, out, dotdot =>
    if IsPathSeparator c then
      cleanLoop rooted fuel rest out dotdot
    else if c = '.' ∧ (rest = [] ∨ IsPathSeparator (rest.headD '/') = true) then
      cleanLoop rooted fuel rest out dotdot
    else if c = '.' ∧ rest.headD '/' = '.'
        ∧ (rest.tail = [] ∨ IsPathSeparator (rest.tail.headD '/') = true) then
      if out.length > dotdot then
        cleanLoop rooted fuel rest.tail (out.take (backtrack out dotdot (out.length - 1))) dotdot
      else if !rooted then
        let out := if out.length > 0 then out ++ ['/'] else out
        let out := out ++ ['.', '.']
        cleanLoop rooted fuel rest.tail out out.length
      else
        cleanLoop rooted fuel rest.tail out dotdot
    else
      let out :=
        if (rooted && out.length != 1) || (!rooted && out.length != 0) then out ++ ['/']
        else out
      let path := c :: rest
      cleanLoop rooted fuel (path.dropWhile (fun x => !IsPathSeparator x))
        (out ++ path.takeWhile (fun x => !IsPathSeparator x)) dotdot

/-- The function `filepath.Clean` on Unix (no volume name). -/
def Clean (path : List Char) : List Char :=
  if path = [] then ['.']
  else
    let rooted := IsPathSeparator (path.headD '.')
    let out :=
      if rooted then cleanLoop rooted path.length path.tail ['/'] 1
      else cleanLoop rooted path.length path [] 0
    if out = [] then ['.'] else out

/-- The function `filepath.Join` on Unix: the elements from the first non-empty
one on, joined by the separator and cleaned. -/
def Join (elem : List (List Char)) : List Char :=
  match elem.dropWhile (fun e => e = []) with
  | [] => []
  | es => Clean (List.intercalate ['/'] es)

/-- Line 158: the destination path of an inner entry under the output root. -/
def destPath (root : List Char) (name : List Char) : List Char :=
  Join [root, TrimPrefix name ['/']]

/-- The path `path` is the output root itself or lies below it: the root is a
leading path component of `path`. -/
def underRoot (root path : List Char) : Bool :=
  path == root || (root ++ ['/']).isPrefixOf path

/-- A plain file name: not empty, without separator, and neither `.` nor `..`. -/
def PlainName (root : List Char) : Prop :=
  root ≠ [] ∧ (∀ c ∈ root, c ≠ '/') ∧ root ≠ ['.'] ∧ root ≠ ['.', '.']

/-! ## Assumptions on the primitives and reader states -/

/-- The digest of `sha256.Sum256` is a `[32]byte`. -/
def DigestSize (P : Primitives) : Prop := ∀ x, (P.sha256 x).length = 32

/-- The reader can set up its block mode: it has one already, or its IV seed
holds at least one block. -/
def Configured (r : CBCReader) : Prop := r.mode ≠ none ∨ 16 ≤ r.iv.length

/-- The AES block functions are inverse to each other on 16-byte blocks, and
encryption yields 16-byte blocks. -/
def BlockInverse (P : Primitives) : Prop :=
  ∀ k b : List Byte, b.length = 16 →
    (P.aesEncrypt k b).length = 16 ∧ P.aesDecrypt k (P.aesEncrypt k b) = b

/-- State of a reader over a stream that was not made of whole blocks: not
flagged, able to decrypt, and with nothing or a ragged length left. -/
def Ragged (P : Primitives) (s : CBCReader) : Prop :=
  s.eof = false ∧ (∃ m, initMode P s = .ok m)
    ∧ (s.reader = [] ∨ s.reader.length % 16 ≠ 0)

/-- State of a reader over a stream made of whole blocks: able to decrypt and
with a multiple of 16 bytes left. -/
def Aligned (P : Primitives) (s : CBCReader) : Prop :=
  (∃ m, initMode P s = .ok m) ∧ s.reader.length % 16 = 0

/-! ## Sample data -/

/-- Test primitives: a constant 32-byte digest and the identity as block cipher. -/
def toyPrimitives : Primitives :=
  { sha256 := fun _ => List.replicate 32 7
    aesEncrypt := fun _ b => b
    aesDecrypt := fun _ b => b }

/-- The header `SecureTar`, `0x02`, six zero bytes, then 16 unused bytes `9` and
the seed bytes `4`, followed by 16 bytes of payload. -/
def sampleBlob : List Byte :=
  [83, 101, 99, 117, 114, 101, 84, 97, 114, 2, 0, 0, 0, 0, 0, 0]
    ++ List.replicate 16 9 ++ List.replicate 16 4 ++ List.replicate 16 5

/-! ## Basic facts about the embedding -/

theorem hashRounds_eq_iterate (P : Primitives) (k : Nat) (h : List Byte) :
    hashRounds P k h = P.sha256^[k] h := by
  induction k generalizing h with
  | zero => rfl
  | succ k ih => simp [hashRounds, ih]

theorem iterate_sha_length (P : Primitives) (hsha : ∀ x, (P.sha256 x).length = 32)
    (k : Nat) (x : List Byte) : (P.sha256^[k + 1] x).length = 32 := by
  rw [Function.iterate_succ_apply']
  exact hsha _

theorem initMode_of_mode (P : Primitives) (r : CBCReader) (m : BlockMode)
    (h : r.mode = some m) : initMode P r = .ok m := by
  simp [initMode, h]

theorem goAppend_digest (key seed : List Byte) (hk : key.length = 32)
    (hs : seed.length = 16) :
    goAppend key 16 seed = (key.take 16 ++ seed, key.take 16 ++ seed) := by
  have hd : key.drop (16 + 16) = [] := List.drop_eq_nil_of_le (by omega)
  have hl : (key.take 16 ++ seed).length ≤ 16 + 16 := by
    rw [List.length_append, List.length_take, hs]; omega
  unfold goAppend
  rw [if_pos (by omega), hs]
  simp only []
  rw [hd, List.append_nil, List.take_of_length_le hl]

theorem initMode_fresh (P : Primitives) (hsha : ∀ x, (P.sha256 x).length = 32)
    (r : CBCReader) (hmode : r.mode = none) (hiv : 16 ≤ r.iv.length) :
    initMode P r = .ok { key := specKey P r.key, iv := specIV P r.key r.iv } := by
  have hk : (P.sha256^[100] r.key).length = 32 := iterate_sha_length P hsha 99 r.key
  have h100 : hashRounds P 99 (P.sha256 r.key) = P.sha256^[100] r.key := by
    rw [hashRounds_eq_iterate]; rfl
  have hseed : (r.iv.take 16).length = 16 := by
    rw [List.length_take]; omega
  have hk16 : ((P.sha256^[100] r.key).take 16).length = 16 := by
    rw [List.length_take, hk]; rfl
  have hiv2 : ¬ r.iv.length < 16 := by omega
  have hnc : NewCipher ((P.sha256^[100] r.key).take 16)
      = .ok ((P.sha256^[100] r.key).take 16) := by
    unfold NewCipher
    rw [if_pos (Or.inl hk16)]
  unfold initMode
  rw [hmode]
  simp only [BlockSize, hiv2, if_false, h100, goAppend_digest _ _ hk hseed,
    List.take_left' hk16, hnc]
  rw [hashRounds_eq_iterate]
  rfl

/-! ## One pull, case by case -/

theorem Read_empty_buf (P : Primitives) (r : CBCReader) :
    Read P r [] = ⟨r, [], 0, none⟩ := by
  simp [Read]

theorem Read_eof (P : Primitives) (r : CBCReader) (buf : List Byte)
    (hb : buf ≠ []) (he : r.eof = true) :
    Read P r buf = ⟨r, buf, 0, some Err.EOF⟩ := by
  have : buf.length ≠ 0 := by simpa using hb
  simp [Read, this, he]

theorem Read_small (P : Primitives) (r : CBCReader) (buf : List Byte)
    (hb : 0 < buf.length) (hlt : buf.length < 16) (he : r.eof = false) :
    Read P r buf = ⟨r, buf, 0, some Err.bufferTooSmall⟩ := by
  have : buf.length ≠ 0 := by omega
  simp [Read, this, he, BlockSize, hlt]

theorem Read_initError (P : Primitives) (r : CBCReader) (buf : List Byte) (e : Err)
    (hb : 16 ≤ buf.length) (he : r.eof = false) (hm : initMode P r = .error e) :
    Read P r buf = ⟨r, buf, 0, some e⟩ := by
  have h0 : buf.length ≠ 0 := by omega
  have h1 : ¬ buf.length < 16 := by omega
  simp [Read, h0, he, BlockSize, h1, hm]

/-- The stream has nothing left: the pull reads zero bytes and returns `EOF`. -/
theorem Read_drained (P : Primitives) (r : CBCReader) (buf : List Byte) (m : BlockMode)
    (hb : 16 ≤ buf.length) (he : r.eof = false) (hm : initMode P r = .ok m)
    (hr : r.reader = []) :
    Read P r buf = ⟨{ r with mode := some m }, buf, 0, some Err.EOF⟩ := by
  have h0 : buf.length ≠ 0 := by omega
  have h1 : ¬ buf.length < 16 := by omega
  simp [Read, h0, he, BlockSize, h1, hm, ReadFull, hr]

/-- The stream holds at least the whole blocks asked for. -/
theorem Read_whole (P : Primitives) (r : CBCReader) (buf : List Byte) (m : BlockMode)
    (hb : 16 ≤ buf.length) (he : r.eof = false) (hm : initMode P r = .ok m)
    (hr : buf.length / 16 * 16 ≤ r.reader.length) :
    Read P r buf =
      ⟨{ r with mode := some (CryptBlocks P m (r.reader.take (buf.length / 16 * 16))).1,
                reader := r.reader.drop (buf.length / 16 * 16) },
       (CryptBlocks P m (r.reader.take (buf.length / 16 * 16))).2
          ++ buf.drop (buf.length / 16 * 16),
       buf.length / 16 * 16, none⟩ := by
  have h0 : buf.length ≠ 0 := by omega
  have h1 : ¬ buf.length < 16 := by omega
  have hw : 16 ≤ buf.length / 16 * 16 := by omega
  have hlen : (r.reader.take (buf.length / 16 * 16)).length = buf.length / 16 * 16 := by
    rw [List.length_take]; omega
  have hn0 : buf.length / 16 * 16 ≠ 0 := by omega
  have hmod : buf.length / 16 * 16 % 16 = 0 := Nat.mul_mod_left _ _
  unfold Read
  rw [if_neg h0, if_neg (by simp [he]), if_neg (by simpa [BlockSize] using h1)]
  simp only [hm, ReadFull, BlockSize, hlen, List.take_left' hlen, List.drop_left' hlen]
  simp [hn0, hmod]

/-- A final short read of whole blocks. -/
theorem Read_short (P : Primitives) (r : CBCReader) (buf : List Byte) (m : BlockMode)
    (hb : 16 ≤ buf.length) (he : r.eof = false) (hm : initMode P r = .ok m)
    (hr : r.reader.length < buf.length / 16 * 16) (hpos : r.reader ≠ [])
    (hal : r.reader.length % 16 = 0) :
    Read P r buf =
      ⟨{ r with mode := some (CryptBlocks P m r.reader).1, reader := [], eof := true },
       (CryptBlocks P m r.reader).2 ++ buf.drop r.reader.length,
       r.reader.length, some Err.ErrUnexpectedEOF⟩ := by
  have h0 : buf.length ≠ 0 := by omega
  have h1 : ¬ buf.length < 16 := by omega
  have hlen : (r.reader.take (buf.length / 16 * 16)) = r.reader :=
    List.take_of_length_le (by omega)
  have hdrop : (r.reader.drop (buf.length / 16 * 16)) = [] :=
    List.drop_eq_nil_of_le (by omega)
  have hn0 : r.reader.length ≠ 0 := by simpa using hpos
  have hge : ¬ r.reader.length ≥ buf.length / 16 * 16 := by omega
  unfold Read
  rw [if_neg h0, if_neg (by simp [he]), if_neg (by simpa [BlockSize] using h1)]
  simp only [hm, ReadFull, BlockSize, hlen, hdrop, List.take_left' rfl, List.drop_left' rfl]
  simp [hn0, hal, hge]

/-- A final short read that is not made of whole blocks. -/
theorem Read_unaligned (P : Primitives) (r : CBCReader) (buf : List Byte) (m : BlockMode)
    (hb : 16 ≤ buf.length) (he : r.eof = false) (hm : initMode P r = .ok m)
    (hr : r.reader.length < buf.length / 16 * 16) (hal : r.reader.length % 16 ≠ 0) :
    Read P r buf =
      ⟨{ r with mode := some m, reader := [] },
       r.reader ++ buf.drop r.reader.length, 0, some Err.invalidPadding⟩ := by
  have h0 : buf.length ≠ 0 := by omega
  have h1 : ¬ buf.length < 16 := by omega
  have hlen : (r.reader.take (buf.length / 16 * 16)) = r.reader :=
    List.take_of_length_le (by omega)
  have hdrop : (r.reader.drop (buf.length / 16 * 16)) = [] :=
    List.drop_eq_nil_of_le (by omega)
  have hn0 : r.reader.length ≠ 0 := by omega
  unfold Read
  rw [if_neg h0, if_neg (by simp [he]), if_neg (by simpa [BlockSize] using h1)]
  simp only [hm, ReadFull, BlockSize, hlen, hdrop]
  simp [hn0, hal]

/-! ## Readers whose stream has run out -/

theorem initMode_ok (P : Primitives) (hsha : DigestSize P) (r : CBCReader)
    (hcfg : Configured r) : ∃ m, initMode P r = .ok m := by
  cases hmode : r.mode with
  | some m => exact ⟨m, initMode_of_mode P r m hmode⟩
  | none =>
    rcases hcfg with h | h
    · exact absurd hmode h
    · exact ⟨_, initMode_fresh P hsha r hmode h⟩

theorem Read_after_end (P : Primitives) (s : CBCReader) (m : BlockMode)
    (hr : s.reader = []) (hm : s.mode = some m) (b : List Byte) :
    (Read P s b).r = s ∧ (Read P s b).n = 0 ∧ (Read P s b).buf = b := by
  by_cases hb : b = []
  · subst hb; simp [Read_empty_buf]
  · cases he : s.eof with
    | true => simp [Read_eof P s b hb he]
    | false =>
      have hpos : 0 < b.length := List.length_pos.mpr hb
      by_cases hlt : b.length < 16
      · simp [Read_small P s b hpos hlt he]
      · rw [Read_drained P s b m (by omega) he (initMode_of_mode P s m hm) hr]
        refine ⟨?_, rfl, rfl⟩
        cases s
        simp_all

theorem afterPulls_after_end (P : Primitives) (s : CBCReader) (m : BlockMode)
    (hr : s.reader = []) (hm : s.mode = some m) (bufs : List (List Byte)) :
    afterPulls P s bufs = s := by
  induction bufs with
  | nil => rfl
  | cons b bs ih =>
    have h := (Read_after_end P s m hr hm b).1
    simp only [afterPulls, List.foldl_cons] at ih ⊢
    rw [h]; exact ih

/-! ## Buffers shorter than a block -/

/-- C7 (as amended): for every buffer shorter than 16 bytes a pull returns 0
bytes; it fails with `read buffer is too small` when the buffer holds 1 to 15
bytes and the reader is not flagged at end of stream, returns a nil error for
an empty buffer, and returns `EOF` for a non-empty buffer on a flagged reader. -/
theorem small_buffer_pull (P : Primitives) (r : CBCReader) (buf : List Byte)
    (hlt : buf.length < 16) :
    (Read P r buf).n = 0
    ∧ (0 < buf.length → r.eof = false → (Read P r buf).err = some Err.bufferTooSmall)
    ∧ (buf.length = 0 → (Read P r buf).err = none)
    ∧ (0 < buf.length → r.eof = true → (Read P r buf).err = some Err.EOF) := by
  by_cases hb : buf = []
  · subst hb
    simp [Read_empty_buf]
  · have hpos : 0 < buf.length := List.length_pos.mpr hb
    have hne : buf.length ≠ 0 := by omega
    cases he : r.eof with
    | true => simp [Read_eof P r buf hb he, hne]
    | false => simp [Read_small P r buf hpos hlt he, hne]

/-- Witness of `small_buffer_pull`: a buffer of three bytes on a fresh reader. -/
theorem small_buffer_pull_witness :
    [1, 2, 3].length < 16
    ∧ (Read toyPrimitives (fresh [] [] []) [1, 2, 3]).n = 0
    ∧ (0 < [1, 2, 3].length → (fresh [] [] []).eof = false →
        (Read toyPrimitives (fresh [] [] []) [1, 2, 3]).err = some Err.bufferTooSmall)
    ∧ ([1, 2, 3].length = 0 → (Read toyPrimitives (fresh [] [] []) [1, 2, 3]).err = none)
    ∧ (0 < [1, 2, 3].length → (fresh [] [] []).eof = true →
        (Read toyPrimitives (fresh [] [] []) [1, 2, 3]).err = some Err.EOF) :=
  ⟨by decide, small_buffer_pull toyPrimitives (fresh [] [] []) [1, 2, 3] (by decide)⟩

/-- C7 fails as stated: a pull with an empty buffer returns a nil error, and a
pull with a one-byte buffer on a reader flagged at end of stream returns `EOF`;
neither fails with `read buffer is too small`. -/
theorem small_buffer_counterexample :
    (Read toyPrimitives (fresh [] [] []) []).err = none
    ∧ (Read toyPrimitives { fresh [] [] [] with eof := true } [0]).err = some Err.EOF
    ∧ ¬ (∀ (P : Primitives) (r : CBCReader) (buf : List Byte), buf.length < 16 →
          (Read P r buf).n = 0 ∧ (Read P r buf).err = some Err.bufferTooSmall) := by
  refine ⟨by decide, by decide, ?_⟩
  intro h
  have h1 := (h toyPrimitives (fresh [] [] []) [] (by decide)).2
  revert h1
  decide

/-! ## The final short read -/

/-- C9 (as amended): on a configured reader not flagged at end of stream whose
stream has a positive multiple of 16 bytes left, a pull whose whole-block
capacity exceeds what is left returns all of it decrypted, with the
unexpected-EOF error, and flags the reader, so that the next pull with a
non-empty buffer returns `(0, EOF)`; a pull with a buffer that is empty or of
at least 16 bytes whose whole-block capacity is at most what is left returns
that capacity with a nil error. -/
theorem final_short_read (P : Primitives) (hsha : DigestSize P) (r : CBCReader)
    (buf : List Byte) (hcfg : Configured r) (he : r.eof = false)
    (hpos : 0 < r.reader.length) (hal : r.reader.length % 16 = 0) :
    ∃ m, initMode P r = .ok m
    ∧ (r.reader.length < buf.length / 16 * 16 →
        (Read P r buf).n = r.reader.length
        ∧ (Read P r buf).buf = (CryptBlocks P m r.reader).2 ++ buf.drop r.reader.length
        ∧ (Read P r buf).err = some Err.ErrUnexpectedEOF
        ∧ (Read P r buf).r.eof = true
        ∧ ∀ next : List Byte, next ≠ [] →
            (Read P (Read P r buf).r next).n = 0
            ∧ (Read P (Read P r buf).r next).err = some Err.EOF)
    ∧ (buf.length = 0 ∨ 16 ≤ buf.length → buf.length / 16 * 16 ≤ r.reader.length →
        (Read P r buf).n = buf.length / 16 * 16
        ∧ (Read P r buf).buf =
            (CryptBlocks P m (r.reader.take (buf.length / 16 * 16))).2
              ++ buf.drop (buf.length / 16 * 16)
        ∧ (Read P r buf).err = none
        ∧ (Read P r buf).r.eof = false) := by
  obtain ⟨m, hm⟩ := initMode_ok P hsha r hcfg
  refine ⟨m, hm, ?_, ?_⟩
  · intro hlt
    have hb : 16 ≤ buf.length := by omega
    have hne : r.reader ≠ [] := List.length_pos.mp hpos
    have hres := Read_short P r buf m hb he hm hlt hne hal
    rw [hres]
    refine ⟨rfl, rfl, rfl, rfl, ?_⟩
    intro next hnext
    rw [Read_eof P _ next hnext rfl]
    exact ⟨rfl, rfl⟩
  · intro hb hle
    rcases hb with hb | hb
    · have hnil : buf = [] := List.length_eq_zero.mp hb
      subst hnil
      rw [Read_empty_buf]
      refine ⟨rfl, ?_, rfl, he⟩
      simp [CryptBlocks, cryptBlocksN]
    · rw [Read_whole P r buf m hb he hm hle]
      exact ⟨rfl, rfl, rfl, he⟩

/-- Witness of `final_short_read`: 16 bytes left and a buffer of 32 bytes. -/
theorem final_short_read_witness :
    DigestSize toyPrimitives
    ∧ Configured (fresh [1] (List.replicate 16 0) (List.replicate 16 5))
    ∧ (fresh [1] (List.replicate 16 0) (List.replicate 16 5)).eof = false
    ∧ 0 < (fresh [1] (List.replicate 16 0) (List.replicate 16 5)).reader.length
    ∧ (fresh [1] (List.replicate 16 0) (List.replicate 16 5)).reader.length % 16 = 0
    ∧ (Read toyPrimitives (fresh [1] (List.replicate 16 0) (List.replicate 16 5))
        (List.replicate 32 0)).n = 16
    ∧ (Read toyPrimitives (fresh [1] (List.replicate 16 0) (List.replicate 16 5))
        (List.replicate 32 0)).err = some Err.ErrUnexpectedEOF := by
  have hsha : DigestSize toyPrimitives := fun _ => rfl
  have hcfg : Configured (fresh [1] (List.replicate 16 0) (List.replicate 16 5)) :=
    Or.inr (by decide)
  obtain ⟨_, _, h, _⟩ := final_short_read toyPrimitives hsha
    (fresh [1] (List.replicate 16 0) (List.replicate 16 5)) (List.replicate 32 0)
    hcfg rfl (by decide) (by decide)
  have h2 := h (by decide)
  exact ⟨hsha, hcfg, rfl, by decide, by decide, h2.1, h2.2.2.1⟩

/-- C9 fails as stated: with 16 bytes left, a buffer of 5 bytes has whole-block
capacity 0, which is at most 16, yet the pull does not return a nil error: it
fails with `read buffer is too small`. -/
theorem final_short_read_counterexample :
    0 < (fresh [1] (List.replicate 16 0) (List.replicate 16 5)).reader.length
    ∧ (fresh [1] (List.replicate 16 0) (List.replicate 16 5)).reader.length % 16 = 0
    ∧ [0, 0, 0, 0, 0].length / 16 * 16
        ≤ (fresh [1] (List.replicate 16 0) (List.replicate 16 5)).reader.length
    ∧ (Read toyPrimitives (fresh [1] (List.replicate 16 0) (List.replicate 16 5))
        [0, 0, 0, 0, 0]).err = some Err.bufferTooSmall
    ∧ (Read toyPrimitives (fresh [1] (List.replicate 16 0) (List.replicate 16 5))
        [0, 0, 0, 0, 0]).err ≠ none := by
  decide

/-! ## End of stream -/

theorem Read_found_end (P : Primitives) (r : CBCReader) (buf : List Byte) (m : BlockMode)
    (hm : initMode P r = .ok m) (he : r.eof = false) (hb : 16 ≤ buf.length)
    (hend : r.reader.length < buf.length / 16 * 16) :
    (Read P r buf).r.reader = [] ∧ (∃ m1, (Read P r buf).r.mode = some m1)
    ∧ ((Read P r buf).r.eof = true ↔ (r.reader ≠ [] ∧ r.reader.length % 16 = 0)) := by
  by_cases hr : r.reader = []
  · rw [Read_drained P r buf m hb he hm hr]
    simp [hr, he]
  · by_cases hal : r.reader.length % 16 = 0
    · rw [Read_short P r buf m hb he hm hend hr hal]
      simp [hr, hal]
    · rw [Read_unaligned P r buf m hb he hm hend hal]
      simp [hal, he]

theorem Read_at_end (P : Primitives) (s : CBCReader) (m : BlockMode)
    (hr : s.reader = []) (hm : s.mode = some m) (next : List Byte) :
    (16 ≤ next.length → (Read P s next).err = some Err.EOF)
    ∧ (s.eof = true → next ≠ [] → (Read P s next).err = some Err.EOF)
    ∧ (next = [] → (Read P s next).err = none) := by
  refine ⟨?_, ?_, ?_⟩
  · intro hb
    have hne : next ≠ [] := by
      intro h; rw [h] at hb; simp at hb
    cases he : s.eof with
    | true => rw [Read_eof P s next hne he]
    | false => rw [Read_drained P s next m hb he (initMode_of_mode P s m hm) hr]
  · intro he hne
    rw [Read_eof P s next hne he]
  · intro h
    rw [h, Read_empty_buf]

/-- C6 (as amended): once a pull with a buffer of at least 16 bytes has found
the underlying stream at its end (it read zero bytes or made a final partial
read), every later pull returns 0 bytes and leaves the caller's buffer
untouched; it returns `EOF` whenever its buffer holds at least 16 bytes, and,
when the partial read was one of whole blocks (the only case that sets the
flag), for every non-empty buffer; an empty buffer gets a nil error. -/
theorem sticky_end_of_stream (P : Primitives) (hsha : DigestSize P) (r : CBCReader)
    (buf : List Byte) (hcfg : Configured r) (he : r.eof = false) (hb : 16 ≤ buf.length)
    (hend : r.reader.length < buf.length / 16 * 16) :
    ((Read P r buf).r.eof = true ↔ (r.reader ≠ [] ∧ r.reader.length % 16 = 0))
    ∧ ∀ (bufs : List (List Byte)) (next : List Byte),
        (Read P (afterPulls P (Read P r buf).r bufs) next).n = 0
        ∧ (Read P (afterPulls P (Read P r buf).r bufs) next).buf = next
        ∧ (16 ≤ next.length →
            (Read P (afterPulls P (Read P r buf).r bufs) next).err = some Err.EOF)
        ∧ ((Read P r buf).r.eof = true → next ≠ [] →
            (Read P (afterPulls P (Read P r buf).r bufs) next).err = some Err.EOF)
        ∧ (next = [] →
            (Read P (afterPulls P (Read P r buf).r bufs) next).err = none) := by
  obtain ⟨m, hm⟩ := initMode_ok P hsha r hcfg
  obtain ⟨hr, ⟨m1, hm1⟩, hflag⟩ := Read_found_end P r buf m hm he hb hend
  refine ⟨hflag, ?_⟩
  intro bufs next
  rw [afterPulls_after_end P _ m1 hr hm1 bufs]
  obtain ⟨_, h2, h3⟩ := Read_after_end P _ m1 hr hm1 next
  obtain ⟨h4, h5, h6⟩ := Read_at_end P _ m1 hr hm1 next
  exact ⟨h2, h3, h4, h5, h6⟩

/-- Witness of `sticky_end_of_stream`: 16 bytes left, a first pull with a buffer
of 32 bytes, then one pull of 16 bytes and a further pull of 16 bytes. -/
theorem sticky_end_of_stream_witness :
    DigestSize toyPrimitives
    ∧ Configured (fresh [1] (List.replicate 16 0) (List.replicate 16 5))
    ∧ 16 ≤ (List.replicate 32 0).length
    ∧ (fresh [1] (List.replicate 16 0) (List.replicate 16 5)).reader.length
        < (List.replicate 32 0).length / 16 * 16
    ∧ (Read toyPrimitives
        (afterPulls toyPrimitives
          (Read toyPrimitives (fresh [1] (List.replicate 16 0) (List.replicate 16 5))
            (List.replicate 32 0)).r
          [List.replicate 16 0])
        (List.replicate 16 0)).err = some Err.EOF := by
  have hsha : DigestSize toyPrimitives := fun _ => rfl
  have hcfg : Configured (fresh [1] (List.replicate 16 0) (List.replicate 16 5)) :=
    Or.inr (by decide)
  have h := (sticky_end_of_stream toyPrimitives hsha
    (fresh [1] (List.replicate 16 0) (List.replicate 16 5)) (List.replicate 32 0)
    hcfg rfl (by decide) (by decide)).2 [List.replicate 16 0] (List.replicate 16 0)
  exact ⟨hsha, hcfg, by decide, by decide, h.2.2.1 (by decide)⟩

/-- C6 fails as stated: on an empty stream a pull with a 16-byte buffer reads
zero bytes and returns `EOF`; the next pull with a one-byte buffer fails with
`read buffer is too small`, and a pull with an empty buffer returns a nil
error. After a final partial read of whole blocks a pull with an empty buffer
returns a nil error too. -/
theorem sticky_end_of_stream_counterexample :
    (Read toyPrimitives (fresh [1] (List.replicate 16 0) []) (List.replicate 16 0)).n = 0
    ∧ (Read toyPrimitives (fresh [1] (List.replicate 16 0) []) (List.replicate 16 0)).err
        = some Err.EOF
    ∧ (Read toyPrimitives
        (Read toyPrimitives (fresh [1] (List.replicate 16 0) []) (List.replicate 16 0)).r
        [0]).err = some Err.bufferTooSmall
    ∧ (Read toyPrimitives
        (Read toyPrimitives (fresh [1] (List.replicate 16 0) []) (List.replicate 16 0)).r
        []).err = none
    ∧ (Read toyPrimitives (fresh [1] (List.replicate 16 0) (List.replicate 16 5))
        (List.replicate 32 0)).err = some Err.ErrUnexpectedEOF
    ∧ (Read toyPrimitives
        (Read toyPrimitives (fresh [1] (List.replicate 16 0) (List.replicate 16 5))
          (List.replicate 32 0)).r
        []).err = none := by
  decide

/-! ## Key derivation -/

/-- C2: on a reader without block mode whose IV seed holds at least 16 bytes,
the block mode set up by `Read` has as key the first 16 bytes of SHA256
iterated 100 times from the passphrase, and as IV the first 16 bytes of SHA256
iterated 100 times from `keyFull[0:16] ++ seed[0:16]`. The `append` overwrites
the second half of the key array and leaves its first 16 bytes, the cipher key,
as they were; the first pull that reads whole blocks decrypts with that mode. -/
theorem key_derivation (P : Primitives) (hsha : DigestSize P) (r : CBCReader)
    (hmode : r.mode = none) (hiv : 16 ≤ r.iv.length) :
    initMode P r = .ok { key := (P.sha256^[100] r.key).take 16,
                         iv := (P.sha256^[100]
                                 ((P.sha256^[100] r.key).take 16 ++ r.iv.take 16)).take 16 }
    ∧ initMode P r = .ok { key := specKey P r.key, iv := specIV P r.key r.iv }
    ∧ (goAppend (hashRounds P 99 (P.sha256 r.key)) 16 (r.iv.take 16)).1
        = (P.sha256^[100] r.key).take 16 ++ r.iv.take 16
    ∧ ((goAppend (hashRounds P 99 (P.sha256 r.key)) 16 (r.iv.take 16)).1).take 16
        = (specKeyFull P r.key).take 16
    ∧ ∀ buf : List Byte, 16 ≤ buf.length → r.eof = false →
        buf.length / 16 * 16 ≤ r.reader.length →
        (Read P r buf).buf =
          (CryptBlocks P { key := specKey P r.key, iv := specIV P r.key r.iv }
            (r.reader.take (buf.length / 16 * 16))).2 ++ buf.drop (buf.length / 16 * 16)
        ∧ (Read P r buf).r.mode =
          some (CryptBlocks P { key := specKey P r.key, iv := specIV P r.key r.iv }
            (r.reader.take (buf.length / 16 * 16))).1 := by
  have hinit := initMode_fresh P hsha r hmode hiv
  have hk : (P.sha256^[100] r.key).length = 32 := iterate_sha_length P hsha 99 r.key
  have h100 : hashRounds P 99 (P.sha256 r.key) = P.sha256^[100] r.key := by
    rw [hashRounds_eq_iterate]; rfl
  have hseed : (r.iv.take 16).length = 16 := by
    rw [List.length_take]; omega
  have hk16 : ((P.sha256^[100] r.key).take 16).length = 16 := by
    rw [List.length_take, hk]; rfl
  refine ⟨hinit, hinit, ?_, ?_, ?_⟩
  · rw [h100, goAppend_digest _ _ hk hseed]
  · rw [h100, goAppend_digest _ _ hk hseed, List.take_left' hk16]
    rfl
  · intro buf hb he hle
    rw [Read_whole P r buf _ hb he hinit hle]
    exact ⟨rfl, rfl⟩

/-- Witness of `key_derivation`: a fresh reader with a 16-byte seed. -/
theorem key_derivation_witness :
    DigestSize toyPrimitives
    ∧ (fresh [1] (List.replicate 16 0) (List.replicate 16 5)).mode = none
    ∧ 16 ≤ (fresh [1] (List.replicate 16 0) (List.replicate 16 5)).iv.length
    ∧ initMode toyPrimitives (fresh [1] (List.replicate 16 0) (List.replicate 16 5))
        = .ok { key := specKey toyPrimitives [1],
                iv := specIV toyPrimitives [1] (List.replicate 16 0) } :=
  ⟨fun _ => rfl, rfl, by decide,
    (key_derivation toyPrimitives (fun _ => rfl)
      (fresh [1] (List.replicate 16 0) (List.replicate 16 5)) rfl (by decide)).2.1⟩

/-! ## The secure header -/

theorem openProtected_ok (key blob : List Byte) (hlen : 48 ≤ blob.length)
    (hmagic : blob.take 16 = secureMagic) :
    openProtected key blob = .ok (fresh key ((blob.drop 32).take 16) (blob.drop 48)) := by
  have hl : (blob.take 48).length = 48 := by rw [List.length_take]; omega
  have h16 : (blob.take 48).take 16 = blob.take 16 := by
    rw [List.take_take]; rfl
  have h32 : (blob.take 48).drop 32 = (blob.drop 32).take 16 := by
    rw [List.drop_take]
  unfold openProtected ReadFull
  simp only [hl, Nat.sub_self, List.replicate_zero, List.append_nil, h16, h32, hmagic]
  simp [fresh]

theorem openProtected_error (key blob : List Byte)
    (h : ¬ (48 ≤ blob.length ∧ blob.take 16 = secureMagic)) :
    openProtected key blob = .error MainErr.invalidProtectedArchive := by
  by_cases hlen : 48 ≤ blob.length
  · have hm : blob.take 16 ≠ secureMagic := fun hm => h ⟨hlen, hm⟩
    have hl : (blob.take 48).length = 48 := by rw [List.length_take]; omega
    have h16 : (blob.take 48).take 16 = blob.take 16 := by
      rw [List.take_take]; rfl
    unfold openProtected ReadFull
    simp only [hl, Nat.sub_self, List.replicate_zero, List.append_nil, h16]
    simp [hm]
  · have hl : (blob.take 48).length = blob.length := by rw [List.length_take]; omega
    have hge : ¬ blob.length ≥ 48 := hlen
    unfold openProtected ReadFull
    simp only [hl]
    by_cases h0 : blob.length = 0 <;> simp [hge, h0]

/-- C4: the protected branch accepts a blob exactly when it holds at least 48
bytes and its first 16 bytes are `SecureTar`, `0x02` and six zero bytes; the
reader then built is fresh, with bytes 32-47 as IV seed and the blob from byte
48 on as stream; every other blob is rejected as `invalid protected archive`
and no reader is built; bytes 16-31 play no part in the decision. -/
theorem secure_header_validation (key blob : List Byte) :
    ((∃ r, openProtected key blob = .ok r) ↔
        (48 ≤ blob.length
          ∧ blob.take 16 = [83, 101, 99, 117, 114, 101, 84, 97, 114, 2, 0, 0, 0, 0, 0, 0]))
    ∧ (∀ r, openProtected key blob = .ok r →
        r = { key := key, iv := (blob.drop 32).take 16, reader := blob.drop 48,
              mode := none, eof := false })
    ∧ ((∀ r, openProtected key blob ≠ .ok r) →
        openProtected key blob = .error MainErr.invalidProtectedArchive)
    ∧ (∀ other : List Byte, other.length = blob.length →
        other.take 16 = blob.take 16 → other.drop 32 = blob.drop 32 →
        ((∃ r, openProtected key other = .ok r) ↔ (∃ r, openProtected key blob = .ok r))) := by
  have hmagic : secureMagic = [83, 101, 99, 117, 114, 101, 84, 97, 114, 2, 0, 0, 0, 0, 0, 0] := by
    decide
  have key_iff : ∀ b : List Byte, (∃ r, openProtected key b = .ok r) ↔
      (48 ≤ b.length ∧ b.take 16 = secureMagic) := by
    intro b
    constructor
    · rintro ⟨r, hr⟩
      by_contra hcon
      rw [openProtected_error key b hcon] at hr
      cases hr
    · rintro ⟨h1, h2⟩
      exact ⟨_, openProtected_ok key b h1 h2⟩
  refine ⟨?_, ?_, ?_, ?_⟩
  · rw [← hmagic]; exact key_iff blob
  · intro r hr
    have h := (key_iff blob).mp ⟨r, hr⟩
    rw [openProtected_ok key blob h.1 h.2] at hr
    cases hr
    rfl
  · intro hno
    apply openProtected_error
    intro h
    exact hno _ (openProtected_ok key blob h.1 h.2)
  · intro other hl ht _
    rw [key_iff other, key_iff blob, hl, ht]

/-- Witness of `secure_header_validation`: a well-formed header is accepted, its
seed and payload are handed to the reader. -/
theorem secure_header_validation_witness :
    openProtected [1] sampleBlob
      = .ok { key := [1], iv := List.replicate 16 4, reader := List.replicate 16 5,
              mode := none, eof := false } := by
  obtain ⟨r, hr⟩ := (secure_header_validation [1] sampleBlob).1.mpr ⟨by decide, by decide⟩
  have h := (secure_header_validation [1] sampleBlob).2.1 r hr
  rw [hr, h]
  rfl

/-! ## Structural checks of the outer container -/

theorem manifestEntryRejected_iff (header : Header) :
    manifestEntryRejected header = true ↔
      (Base header.Name ≠ "backup.json".toList ∨ header.Size > 4096) := by
  simp [manifestEntryRejected]

theorem blobEntryRejected_iff (isProtected : Bool) (header : Header) :
    blobEntryRejected isProtected header = true ↔
      (header.Size < 1024 ∨ (isProtected = true ∧ ¬ (16 ∣ header.Size))) := by
  have h : (1 : Int) <<< 10 = 1024 := rfl
  simp [blobEntryRejected, Int.dvd_iff_tmod_eq_zero, h]

theorem manifestFlag_eq (manifest : Manifest) (name : String) :
    (∀ b, manifest name = some (JSON.bool b) → manifestFlag manifest name = b)
    ∧ ((∀ b, manifest name ≠ some (JSON.bool b)) → manifestFlag manifest name = false) := by
  constructor
  · intro b hb
    simp [manifestFlag, assertBool, hb]
  · intro hno
    unfold manifestFlag
    cases hv : manifest name with
    | none => simp [assertBool]
    | some v =>
      cases v with
      | bool b => exact absurd hv (hno b)
      | _ => simp [assertBool]

/-- C5: `main` rejects an archive as `invalid backup archive` exactly when the
final path component of the first entry's name is not `backup.json`, or the
first entry's size exceeds 4096, or the second entry's size is below 1024, or
the archive is protected and the second entry's size is not a multiple of 16;
`protected` and `compressed` are the manifest fields when these are JSON
booleans and false otherwise. -/
theorem outer_structure_checks (key : List Byte) (first : Header) (manifest : Manifest)
    (second : Header) (blob : List Byte) :
    (openBackup key first manifest second blob = .error MainErr.invalidBackupArchive ↔
      (Base first.Name ≠ "backup.json".toList
        ∨ first.Size > 4096
        ∨ second.Size < 1024
        ∨ (manifestFlag manifest "protected" = true ∧ ¬ (16 ∣ second.Size))))
    ∧ (∀ name b, manifest name = some (JSON.bool b) → manifestFlag manifest name = b)
    ∧ (∀ name, (∀ b, manifest name ≠ some (JSON.bool b)) → manifestFlag manifest name = false)
    ∧ (∀ o, openBackup key first manifest second blob = .ok o →
        o.isProtected = manifestFlag manifest "protected"
        ∧ o.compressed = manifestFlag manifest "compressed") := by
  have h1 := manifestEntryRejected_iff first
  have h2 := blobEntryRejected_iff (manifestFlag manifest "protected") second
  refine ⟨?_, fun name b => (manifestFlag_eq manifest name).1 b,
    fun name => (manifestFlag_eq manifest name).2, ?_⟩
  · unfold openBackup
    by_cases c1 : manifestEntryRejected first = true
    · have := h1.mp c1
      simp only [c1, if_true, true_iff]
      tauto
    · have n1 := mt h1.mpr c1
      by_cases c2 : blobEntryRejected (manifestFlag manifest "protected") second = true
      · have := h2.mp c2
        simp only [c1, c2, if_true, true_iff]
        tauto
      · have n2 := mt h2.mpr c2
        have hrhs : ¬ (Base first.Name ≠ "backup.json".toList ∨ first.Size > 4096
            ∨ second.Size < 1024
            ∨ (manifestFlag manifest "protected" = true ∧ ¬ (16 ∣ second.Size))) := by
          tauto
        simp only [c1, c2, hrhs, iff_false]
        cases hp : manifestFlag manifest "protected" with
        | false => simp
        | true =>
          by_cases hhead : 48 ≤ blob.length ∧ blob.take 16 = secureMagic
          · simp [openProtected_ok key blob hhead.1 hhead.2]
          · simp [openProtected_error key blob hhead]
  · intro o ho
    unfold openBackup at ho
    by_cases c1 : manifestEntryRejected first = true
    · simp [c1] at ho
    · by_cases c2 : blobEntryRejected (manifestFlag manifest "protected") second = true
      · simp [c1, c2] at ho
      · simp only [c1, c2] at ho
        cases hp : manifestFlag manifest "protected" with
        | false =>
          simp [hp] at ho
          subst ho
          exact ⟨rfl, rfl⟩
        | true =>
          by_cases hhead : 48 ≤ blob.length ∧ blob.take 16 = secureMagic
          · simp [hp, openProtected_ok key blob hhead.1 hhead.2] at ho
            subst ho
            exact ⟨rfl, rfl⟩
          · simp [hp, openProtected_error key blob hhead] at ho

/-! ## Destination paths -/

theorem cleanLoop_nil (rooted : Bool) (fuel : Nat) (out : List Char) (dotdot : Nat) :
    cleanLoop rooted fuel [] out dotdot = out := by
  cases fuel <;> rfl

theorem backtrack_plain (out : List Char) (h : ∀ c ∈ out, c ≠ '/') :
    ∀ w, w < out.length → backtrack out 0 w = 0
  | 0, _ => rfl
  | w + 1, hw => by
    have hmem : out.getD (w + 1) '/' ∈ out := by
      rw [List.getD_eq_getElem _ _ hw]
      exact List.getElem_mem _
    have hns : IsPathSeparator (out.getD (w + 1) '/') = false := by
      unfold IsPathSeparator
      exact decide_eq_false (h _ hmem)
    simp only [backtrack, hns]
    simpa using backtrack_plain out h w (by omega)

theorem takeWhile_plain (root tl : List Char) (h : ∀ c ∈ root, c ≠ '/') :
    (root ++ '/' :: tl).takeWhile (fun x => !IsPathSeparator x) = root
    ∧ (root ++ '/' :: tl).dropWhile (fun x => !IsPathSeparator x) = '/' :: tl := by
  induction root with
  | nil => simp [IsPathSeparator]
  | cons c cs ih =>
    have hc : c ≠ '/' := h c (List.mem_cons_self _ _)
    have ih2 := ih (fun x hx => h x (List.mem_cons_of_mem _ hx))
    simp [IsPathSeparator, hc] at ih2 ⊢
    exact ih2

theorem clean_escape (root : List Char) (h : PlainName root) :
    Clean (root ++ "/../../x".toList) = "../x".toList := by
  obtain ⟨hne, hplain, hdot, hdotdot⟩ := h
  cases root with
  | nil => exact absurd rfl hne
  | cons c cs =>
    have hc : c ≠ '/' := hplain c (List.mem_cons_self _ _)
    have hsep : IsPathSeparator c = false := by
      unfold IsPathSeparator; exact decide_eq_false hc
    have hsplit := takeWhile_plain (c :: cs) "../../x".toList hplain
    have hcase2 : ¬ (c = '.' ∧ (cs ++ "/../../x".toList = []
        ∨ IsPathSeparator ((cs ++ "/../../x".toList).headD '/') = true)) := by
      rintro ⟨h1, h2⟩
      rcases h2 with h2 | h2
      · simp at h2
      · cases cs with
        | nil => exact hdot (by rw [h1])
        | cons d ds =>
          have hd : d ≠ '/' := hplain d (by simp)
          simp [IsPathSeparator, hd] at h2
    have hcase3 : ¬ (c = '.' ∧ (cs ++ "/../../x".toList).headD '/' = '.'
        ∧ ((cs ++ "/../../x".toList).tail = []
          ∨ IsPathSeparator ((cs ++ "/../../x".toList).tail.headD '/') = true)) := by
      rintro ⟨h1, h2, h3⟩
      cases cs with
      | nil => simp at h2
      | cons d ds =>
        have hd : d = '.' := by simpa using h2
        cases ds with
        | nil => exact hdotdot (by rw [h1, hd])
        | cons e es =>
          have he : e ≠ '/' := hplain e (by simp)
          simp [IsPathSeparator, he] at h3
    have hlen : (c :: (cs ++ "/../../x".toList)).length = (cs.length + 7) + 1 + 1 := by
      simp
    have hbt : backtrack (c :: cs) 0 cs.length = 0 :=
      backtrack_plain (c :: cs) hplain _ (by simp)
    have hloop : cleanLoop false (cs.length + 7 + 1 + 1) (c :: (cs ++ "/../../x".toList)) [] 0
        = "../x".toList := by
      have hsplit1 := hsplit.1
      have hsplit2 := hsplit.2
      simp only [List.cons_append] at hsplit1 hsplit2
      have hstr : "/../../x".toList = '/' :: "../../x".toList := rfl
      rw [hstr] at hcase2 hcase3 ⊢
      rw [cleanLoop]
      simp only [hsep, hcase2, hcase3, if_false, Bool.false_eq_true, hsplit1, hsplit2]
      have hstr2 : "../../x".toList = ['.', '.', '/', '.', '.', '/', 'x'] := rfl
      rw [hstr2]
      simp [cleanLoop, IsPathSeparator, hbt, cleanLoop_nil]
    unfold Clean
    rw [if_neg (by simp)]
    simp only [List.cons_append, List.headD_cons, hsep, hlen, hloop, Bool.false_eq_true,
      if_false]
    rfl

theorem destPath_plain (root name : List Char) (h : root ≠ []) (hn : name.head? ≠ some '/') :
    destPath root name = Clean (root ++ '/' :: name) := by
  have ht : TrimPrefix name ['/'] = name := by
    cases name with
    | nil => simp [TrimPrefix]
    | cons c cs =>
      have hc : ¬ '/' = c := by
        intro hc; apply hn; rw [← hc]; rfl
      simp [TrimPrefix, hc]
  simp [destPath, ht, Join, h, List.intercalate]

theorem underRoot_escape (root : List Char) (h : PlainName root) :
    underRoot root "../x".toList = false := by
  obtain ⟨hne, hplain, hdot, hdotdot⟩ := h
  have hx : "../x".toList = ['.', '.', '/', 'x'] := rfl
  rw [hx]
  rcases root with _ | ⟨a, _ | ⟨b, _ | ⟨c, r⟩⟩⟩
  · exact absurd rfl hne
  · simp [underRoot, List.isPrefixOf]
  · have hab : ¬ (a = '.' ∧ b = '.') := by
      rintro ⟨h1, h2⟩
      exact hdotdot (by rw [h1, h2])
    have hb : b ≠ '/' := hplain b (by simp)
    simp [underRoot, List.isPrefixOf]
    intro h1 h2
    exact absurd ⟨h1, h2⟩ hab
  · have hc : c ≠ '/' := hplain c (by simp)
    simp [underRoot, List.isPrefixOf, hc]
    intro _ _ h3
    exact absurd h3.symm hc

/-- C8: the destination path is the join of the output root with the entry's
name less one leading separator (a second leading separator is kept), and `..`
segments are not rejected: under the root `backup` the name `../x` gives the
destination `x`, which does not have the root as leading path component, and
under every root that is a plain file name the name `../../x` gives `../x`,
outside the root. -/
theorem dest_path_escapes :
    (∀ root rest : List Char, destPath root ('/' :: rest) = Join [root, rest])
    ∧ (∀ root rest : List Char,
        destPath root ('/' :: '/' :: rest) = Join [root, '/' :: rest])
    ∧ (∀ root name : List Char, name.head? ≠ some '/' → destPath root name = Join [root, name])
    ∧ destPath "backup".toList "../x".toList = "x".toList
    ∧ underRoot "backup".toList (destPath "backup".toList "../x".toList) = false
    ∧ destPath "backup".toList "a/../../../etc/passwd".toList = "../etc/passwd".toList
    ∧ (∀ root : List Char, PlainName root →
        destPath root "../../x".toList = "../x".toList
        ∧ underRoot root (destPath root "../../x".toList) = false)
    ∧ (∃ root name : List Char, root ≠ [] ∧ underRoot root (destPath root name) = false) := by
  refine ⟨?_, ?_, ?_, by decide, by decide, by decide, ?_, ?_⟩
  · intro root rest
    simp [destPath, TrimPrefix]
  · intro root rest
    simp [destPath, TrimPrefix]
  · intro root name h
    cases name with
    | nil => simp [destPath, TrimPrefix]
    | cons c cs =>
      have hc : ¬ '/' = c := by
        intro hc; apply h; rw [← hc]; rfl
      simp [destPath, TrimPrefix, hc]
  · intro root hroot
    have hd : destPath root "../../x".toList = "../x".toList := by
      rw [destPath_plain root _ hroot.1 (by decide)]
      exact clean_escape root hroot
    rw [hd]
    exact ⟨rfl, underRoot_escape root hroot⟩
  · exact ⟨"backup".toList, "../x".toList, by decide, by decide⟩

/-! ## CBC chaining -/

theorem xorBytes_cancel : ∀ (p iv : List Byte), p.length ≤ iv.length →
    xorBytes (xorBytes p iv) iv = p
  | [], _, _ => by simp [xorBytes]
  | a :: p, [], h => by simp at h
  | a :: p, b :: iv, h => by
    have ih := xorBytes_cancel p iv (by simpa using h)
    simp only [xorBytes, List.zipWith_cons_cons] at ih ⊢
    rw [ih, Nat.xor_cancel_right]

theorem xorBytes_length (p iv : List Byte) :
    (xorBytes p iv).length = min p.length iv.length := by
  simp [xorBytes]

theorem cbc_chain (P : Primitives) (haes : BlockInverse P) (k : List Byte) :
    ∀ (j t : Nat) (iv plain : List Byte), iv.length = 16 → 16 * (j + t) ≤ plain.length →
      ∃ iv1 : List Byte, iv1.length = 16
        ∧ cbcEncryptN P k (j + t) iv plain
            = cbcEncryptN P k j iv plain ++ cbcEncryptN P k t iv1 (plain.drop (16 * j))
        ∧ (cbcEncryptN P k j iv plain).length = 16 * j
        ∧ cryptBlocksN P k j iv (cbcEncryptN P k j iv plain) = (iv1, plain.take (16 * j)) := by
  intro j
  induction j with
  | zero =>
    intro t iv plain hiv _
    refine ⟨iv, hiv, ?_, rfl, ?_⟩
    · simp [cbcEncryptN]
    · simp [cryptBlocksN]
  | succ j ih =>
    intro t iv plain hiv hlen
    have hx : (xorBytes (plain.take 16) iv).length = 16 := by
      rw [xorBytes_length, List.length_take, hiv]; omega
    obtain ⟨hc, hdec⟩ := haes k _ hx
    have hplain16 : (plain.take 16).length ≤ iv.length := by
      rw [List.length_take, hiv]; omega
    obtain ⟨iv1, hiv1, hsplit, hl, hcrypt⟩ :=
      ih t (P.aesEncrypt k (xorBytes (plain.take 16) iv)) (plain.drop 16) hc
        (by rw [List.length_drop]; omega)
    refine ⟨iv1, hiv1, ?_, ?_, ?_⟩
    · have e : j + 1 + t = (j + t) + 1 := by omega
      rw [e]
      simp only [cbcEncryptN, BlockSize]
      rw [hsplit, List.drop_drop, List.append_assoc]
      have e2 : 16 + 16 * j = 16 * (j + 1) := by omega
      rw [e2]
    · simp only [cbcEncryptN, BlockSize, List.length_append, hc, hl]
      omega
    · simp only [cbcEncryptN, cryptBlocksN, BlockSize, List.take_left' hc,
        List.drop_left' hc, hdec, hcrypt, xorBytes_cancel _ _ hplain16]
      have e2 : 16 * (j + 1) = 16 + 16 * j := by omega
      rw [e2, List.take_add]

/-- One pull on a reader whose stream is the CBC encryption of `rest` under its
block mode: the pull returns a non-empty prefix of `rest`, and the stream left
is the CBC encryption of what remains of `rest` under the new block mode. -/
theorem Read_chained (P : Primitives) (haes : BlockInverse P) (k : List Byte)
    (s : CBCReader) (iv rest : List Byte) (t : Nat) (b : List Byte)
    (hb : 16 ≤ b.length) (hm : initMode P s = .ok { key := k, iv := iv })
    (hiv : iv.length = 16) (hr : s.reader = cbcEncryptN P k t iv rest)
    (hlen : rest.length = 16 * t) (he : s.eof = false) (ht : 0 < t) :
    ∃ (iv1 : List Byte) (t1 : Nat),
      (Read P s b).n ≠ 0
      ∧ (Read P s b).buf.take (Read P s b).n = rest.take (Read P s b).n
      ∧ initMode P (Read P s b).r = .ok { key := k, iv := iv1 }
      ∧ iv1.length = 16
      ∧ (Read P s b).r.reader = cbcEncryptN P k t1 iv1 (rest.drop (Read P s b).n)
      ∧ (rest.drop (Read P s b).n).length = 16 * t1
      ∧ ((Read P s b).r.eof = true → t1 = 0)
      ∧ t1 < t := by
  have hrl : s.reader.length = 16 * t := by
    obtain ⟨_, _, _, hl, _⟩ := cbc_chain P haes k t 0 iv rest hiv (by omega)
    rw [hr]; exact hl
  by_cases hj : b.length / 16 ≤ t
  · -- the stream holds the whole blocks asked for
    obtain ⟨iv1, hiv1, hsplit, hl, hcrypt⟩ :=
      cbc_chain P haes k (b.length / 16) (t - b.length / 16) iv rest hiv (by omega)
    have ejt : b.length / 16 + (t - b.length / 16) = t := by omega
    rw [ejt] at hsplit
    have hl2 : (cbcEncryptN P k (b.length / 16) iv rest).length = b.length / 16 * 16 := by
      rw [hl]; omega
    have htake : s.reader.take (b.length / 16 * 16) = cbcEncryptN P k (b.length / 16) iv rest := by
      rw [hr, hsplit, List.take_left' hl2]
    have hdrop : s.reader.drop (b.length / 16 * 16)
        = cbcEncryptN P k (t - b.length / 16) iv1 (rest.drop (16 * (b.length / 16))) := by
      rw [hr, hsplit, List.drop_left' hl2]
    have hcb : CryptBlocks P { key := k, iv := iv } (cbcEncryptN P k (b.length / 16) iv rest)
        = ({ key := k, iv := iv1 }, rest.take (16 * (b.length / 16))) := by
      unfold CryptBlocks
      simp only [BlockSize, hl, Nat.mul_div_cancel_left _ (show 0 < 16 by omega), hcrypt]
    have hcomm : b.length / 16 * 16 = 16 * (b.length / 16) := Nat.mul_comm _ _
    have hres := Read_whole P s b _ hb he hm (by omega)
    rw [htake, hcb, hdrop] at hres
    rw [hres]
    have hpl : (rest.take (16 * (b.length / 16))).length = b.length / 16 * 16 := by
      rw [List.length_take]; omega
    refine ⟨iv1, t - b.length / 16, ?_, ?_, initMode_of_mode P _ _ rfl, hiv1, ?_, ?_, ?_, ?_⟩
    · show b.length / 16 * 16 ≠ 0
      omega
    · show (rest.take (16 * (b.length / 16)) ++ b.drop (b.length / 16 * 16)).take
          (b.length / 16 * 16) = rest.take (b.length / 16 * 16)
      rw [List.take_left' hpl, hcomm]
    · show cbcEncryptN P k (t - b.length / 16) iv1 (rest.drop (16 * (b.length / 16)))
          = cbcEncryptN P k (t - b.length / 16) iv1 (rest.drop (b.length / 16 * 16))
      rw [hcomm]
    · show (rest.drop (b.length / 16 * 16)).length = 16 * (t - b.length / 16)
      rw [List.length_drop]; omega
    · intro h
      exact absurd (show s.eof = true from h) (by simp [he])
    · omega
  · -- a final short read
    obtain ⟨iv1, hiv1, hsplit, hl, hcrypt⟩ := cbc_chain P haes k t 0 iv rest hiv (by omega)
    have hne : s.reader ≠ [] := by
      intro h; rw [h] at hrl; simp at hrl; omega
    have hcb : CryptBlocks P { key := k, iv := iv } s.reader
        = ({ key := k, iv := iv1 }, rest) := by
      unfold CryptBlocks
      simp only [BlockSize, hrl, Nat.mul_div_cancel_left _ (show 0 < 16 by omega)]
      rw [hr, hcrypt, List.take_of_length_le (by omega)]
    have hres := Read_short P s b _ hb he hm (by omega) hne (by omega)
    rw [hcb] at hres
    rw [hres]
    have hd : rest.drop s.reader.length = [] := List.drop_eq_nil_of_le (by omega)
    refine ⟨iv1, 0, ?_, ?_, initMode_of_mode P _ _ rfl, hiv1, ?_, ?_, ?_, ht⟩
    · show s.reader.length ≠ 0
      omega
    · show (rest ++ b.drop s.reader.length).take s.reader.length = rest.take s.reader.length
      rw [List.take_left' (by omega), List.take_of_length_le (by omega)]
    · rfl
    · show (rest.drop s.reader.length).length = 16 * 0
      rw [hd]; rfl
    · intro _; rfl

theorem drain_chained (P : Primitives) (haes : BlockInverse P) (k : List Byte) :
    ∀ (bufs : List (List Byte)) (s : CBCReader) (iv rest : List Byte) (t : Nat),
      (∀ b ∈ bufs, 16 ≤ b.length) → initMode P s = .ok { key := k, iv := iv } →
      iv.length = 16 → s.reader = cbcEncryptN P k t iv rest → rest.length = 16 * t →
      (s.eof = true → t = 0) →
      (drain P s bufs = none ∨ drain P s bufs = some rest)
      ∧ (t < bufs.length → drain P s bufs = some rest) := by
  intro bufs
  induction bufs with
  | nil =>
    intro s iv rest t _ _ _ _ _ _
    exact ⟨Or.inl rfl, fun h => absurd h (by simp)⟩
  | cons b bs ih =>
    intro s iv rest t hbufs hm hiv hr hlen heof
    have hb : 16 ≤ b.length := hbufs b (List.mem_cons_self _ _)
    have hbs : ∀ x ∈ bs, 16 ≤ x.length := fun x hx => hbufs x (List.mem_cons_of_mem _ hx)
    have hzero : t = 0 → drain P s (b :: bs) = some rest := by
      intro ht
      have hrest : rest = [] := List.length_eq_zero.mp (by omega)
      have hn : (Read P s b).n = 0 := by
        cases he : s.eof with
        | true =>
          have hne : b ≠ [] := by
            intro h; rw [h] at hb; simp at hb
          rw [Read_eof P s b hne he]
        | false =>
          rw [Read_drained P s b _ hb he hm (by rw [hr, ht]; rfl)]
      simp [drain, hn, hrest]
    by_cases ht : t = 0
    · exact ⟨Or.inr (hzero ht), fun _ => hzero ht⟩
    · have he : s.eof = false := by
        cases h : s.eof with
        | true => exact absurd (heof h) ht
        | false => rfl
      obtain ⟨iv1, t1, hn, htk, hm1, hiv1, hr1, hl1, he1, hlt⟩ :=
        Read_chained P haes k s iv rest t b hb hm hiv hr hlen he (by omega)
      obtain ⟨ih1, ih2⟩ := ih (Read P s b).r iv1 (rest.drop (Read P s b).n) t1 hbs hm1 hiv1
        hr1 hl1 he1
      have hd : drain P s (b :: bs)
          = (drain P (Read P s b).r bs).map (fun out => rest.take (Read P s b).n ++ out) := by
        simp only [drain, hn, if_false, htk]
      constructor
      · rcases ih1 with h | h
        · left; rw [hd, h]; rfl
        · right; rw [hd, h]; simp
      · intro hlong
        have : t1 < bs.length := by
          simp only [List.length_cons] at hlong; omega
        rw [hd, ih2 this]; simp

/-! ## Round trip -/

/-- C1: for every passphrase, every 16-byte IV seed and every plaintext made of
whole blocks, a fresh reader over the CBC encryption of the plaintext under the
derived key and IV gives the plaintext back: pulling with buffers of at least
16 bytes each, of whatever sizes, until a pull returns zero bytes, the bytes
returned concatenate to the plaintext; and one pull more than the plaintext has
blocks is always enough to get there. -/
theorem round_trip (P : Primitives) (hsha : DigestSize P) (haes : BlockInverse P)
    (passphrase seed plain : List Byte) (hseed : seed.length = 16)
    (hplain : plain.length % 16 = 0) (bufs : List (List Byte))
    (hbufs : ∀ b ∈ bufs, 16 ≤ b.length) :
    (∀ out : List Byte,
        drain P (fresh passphrase seed
          (cbcEncrypt P (specKey P passphrase) (specIV P passphrase seed) plain)) bufs
          = some out → out = plain)
    ∧ (plain.length / 16 < bufs.length →
        drain P (fresh passphrase seed
          (cbcEncrypt P (specKey P passphrase) (specIV P passphrase seed) plain)) bufs
          = some plain) := by
  have hm := initMode_fresh P hsha
    (fresh passphrase seed
      (cbcEncrypt P (specKey P passphrase) (specIV P passphrase seed) plain)) rfl
    (by show 16 ≤ seed.length; omega)
  have hivl : (specIV P passphrase seed).length = 16 := by
    unfold specIV specIVFull
    rw [List.length_take, iterate_sha_length P hsha 99]
    rfl
  obtain ⟨h1, h2⟩ := drain_chained P haes (specKey P passphrase) bufs _
    (specIV P passphrase seed) plain (plain.length / 16) hbufs hm hivl rfl (by omega)
    (fun h => absurd (show false = true from h) (by simp))
  refine ⟨?_, h2⟩
  intro out hout
  rcases h1 with h | h
  · rw [h] at hout; cases hout
  · rw [h] at hout; cases hout; rfl

/-- Witness of `round_trip`: two blocks of plaintext pulled with buffers of 16,
40 and 16 bytes. -/
theorem round_trip_witness :
    DigestSize toyPrimitives ∧ BlockInverse toyPrimitives
    ∧ (List.replicate 16 0).length = 16
    ∧ (List.replicate 16 5 ++ List.replicate 16 6).length % 16 = 0
    ∧ (∀ b ∈ [List.replicate 16 0, List.replicate 40 0, List.replicate 16 0], 16 ≤ b.length)
    ∧ drain toyPrimitives
        (fresh [1] (List.replicate 16 0)
          (cbcEncrypt toyPrimitives (specKey toyPrimitives [1])
            (specIV toyPrimitives [1] (List.replicate 16 0))
            (List.replicate 16 5 ++ List.replicate 16 6)))
        [List.replicate 16 0, List.replicate 40 0, List.replicate 16 0]
        = some (List.replicate 16 5 ++ List.replicate 16 6) :=
  ⟨fun _ => rfl, fun _ _ h => ⟨h, rfl⟩, by decide, by decide, by decide,
    (round_trip toyPrimitives (fun _ => rfl) (fun _ _ h => ⟨h, rfl⟩) [1]
      (List.replicate 16 0) (List.replicate 16 5 ++ List.replicate 16 6)
      (by decide) (by decide)
      [List.replicate 16 0, List.replicate 40 0, List.replicate 16 0] (by decide)).2
      (by decide)⟩

/-! ## Streams that are not made of whole blocks -/

theorem Ragged_Read (P : Primitives) (s : CBCReader) (b : List Byte)
    (hs : Ragged P s) (hb : 16 ≤ b.length) : Ragged P (Read P s b).r := by
  obtain ⟨he, ⟨m, hm⟩, hr⟩ := hs
  by_cases hnil : s.reader = []
  · rw [Read_drained P s b m hb he hm hnil]
    exact ⟨he, ⟨m, initMode_of_mode P _ _ rfl⟩, Or.inl hnil⟩
  · have hal : s.reader.length % 16 ≠ 0 := by
      rcases hr with h | h
      · exact absurd h hnil
      · exact h
    by_cases hle : b.length / 16 * 16 ≤ s.reader.length
    · rw [Read_whole P s b m hb he hm hle]
      refine ⟨he, ⟨_, initMode_of_mode P _ _ rfl⟩, Or.inr ?_⟩
      show (s.reader.drop (b.length / 16 * 16)).length % 16 ≠ 0
      rw [List.length_drop]; omega
    · rw [Read_unaligned P s b m hb he hm (by omega) hal]
      exact ⟨he, ⟨m, initMode_of_mode P _ _ rfl⟩, Or.inl rfl⟩

theorem Ragged_afterPulls (P : Primitives) :
    ∀ (bufs : List (List Byte)) (s : CBCReader), Ragged P s →
      (∀ b ∈ bufs, 16 ≤ b.length) → Ragged P (afterPulls P s bufs) := by
  intro bufs
  induction bufs with
  | nil => intro s hs _; exact hs
  | cons b bs ih =>
    intro s hs hbufs
    have hb : 16 ≤ b.length := hbufs b (List.mem_cons_self _ _)
    have hbs : ∀ x ∈ bs, 16 ≤ x.length := fun x hx => hbufs x (List.mem_cons_of_mem _ hx)
    exact ih _ (Ragged_Read P s b hs hb) hbs

/-- C3: on a fresh reader over a stream whose length is not a multiple of 16,
with an IV seed of at least 16 bytes and buffers of at least 16 bytes each, a
pull made while the stream still has bytes left either finds the whole blocks
it asks for, and then succeeds with that positive whole-block count and leaves
bytes in the stream, or runs the stream out, and then fails with
`invalid padding` and returns 0 bytes. -/
theorem unaligned_stream (P : Primitives) (hsha : DigestSize P)
    (key seed stream : List Byte) (hseed : 16 ≤ seed.length)
    (hlen : stream.length % 16 ≠ 0) (bufs : List (List Byte))
    (hbufs : ∀ b ∈ bufs, 16 ≤ b.length) (buf : List Byte) (hbuf : 16 ≤ buf.length)
    (hleft : (afterPulls P (fresh key seed stream) bufs).reader ≠ []) :
    (buf.length / 16 * 16 ≤ (afterPulls P (fresh key seed stream) bufs).reader.length →
        (Read P (afterPulls P (fresh key seed stream) bufs) buf).n = buf.length / 16 * 16
        ∧ 0 < (Read P (afterPulls P (fresh key seed stream) bufs) buf).n
        ∧ (Read P (afterPulls P (fresh key seed stream) bufs) buf).n % 16 = 0
        ∧ (Read P (afterPulls P (fresh key seed stream) bufs) buf).err = none
        ∧ (Read P (afterPulls P (fresh key seed stream) bufs) buf).r.reader ≠ [])
    ∧ ((afterPulls P (fresh key seed stream) bufs).reader.length < buf.length / 16 * 16 →
        (Read P (afterPulls P (fresh key seed stream) bufs) buf).n = 0
        ∧ (Read P (afterPulls P (fresh key seed stream) bufs) buf).err
            = some Err.invalidPadding
        ∧ (Read P (afterPulls P (fresh key seed stream) bufs) buf).r.reader = []) := by
  have h0 : Ragged P (fresh key seed stream) :=
    ⟨rfl, initMode_ok P hsha _ (Or.inr hseed), Or.inr hlen⟩
  obtain ⟨he, ⟨m, hm⟩, hr⟩ := Ragged_afterPulls P bufs _ h0 hbufs
  have hal : (afterPulls P (fresh key seed stream) bufs).reader.length % 16 ≠ 0 := by
    rcases hr with h | h
    · exact absurd h hleft
    · exact h
  constructor
  · intro hle
    rw [Read_whole P _ buf m hbuf he hm hle]
    refine ⟨rfl, ?_, ?_, rfl, ?_⟩
    · show 0 < buf.length / 16 * 16
      omega
    · show buf.length / 16 * 16 % 16 = 0
      omega
    · show (afterPulls P (fresh key seed stream) bufs).reader.drop (buf.length / 16 * 16) ≠ []
      intro h
      have := congrArg List.length h
      rw [List.length_drop] at this
      simp at this
      omega
  · intro hlt
    rw [Read_unaligned P _ buf m hbuf he hm hlt hal]
    exact ⟨rfl, rfl, rfl⟩

/-- Witness of `unaligned_stream`: 40 bytes of stream, a first pull of 16 bytes
and then a pull with a buffer of 32 bytes, which runs the stream out. -/
theorem unaligned_stream_witness :
    DigestSize toyPrimitives
    ∧ 16 ≤ (List.replicate 16 0).length
    ∧ (List.replicate 40 5).length % 16 ≠ 0
    ∧ (∀ b ∈ [List.replicate 16 0], 16 ≤ b.length)
    ∧ 16 ≤ (List.replicate 32 0).length
    ∧ (afterPulls toyPrimitives (fresh [1] (List.replicate 16 0) (List.replicate 40 5))
        [List.replicate 16 0]).reader ≠ []
    ∧ (Read toyPrimitives
        (afterPulls toyPrimitives (fresh [1] (List.replicate 16 0) (List.replicate 40 5))
          [List.replicate 16 0])
        (List.replicate 32 0)).err = some Err.invalidPadding :=
  ⟨fun _ => rfl, by decide, by decide, by decide, by decide, by decide,
    ((unaligned_stream toyPrimitives (fun _ => rfl) [1] (List.replicate 16 0)
      (List.replicate 40 5) (by decide) (by decide) [List.replicate 16 0] (by decide)
      (List.replicate 32 0) (by decide) (by decide)).2 (by decide)).2.1⟩

/-! ## The blob check and the decryptor -/

theorem Aligned_Read (P : Primitives) (s : CBCReader) (b : List Byte) (hs : Aligned P s) :
    Aligned P (Read P s b).r
    ∧ (Read P s b).err ≠ some Err.invalidPadding
    ∧ (Read P s b).err ≠ some Err.invalidIVSize
    ∧ (Read P s b).err ≠ some Err.keySize := by
  obtain ⟨⟨m, hm⟩, hal⟩ := hs
  by_cases hnil : b = []
  · subst hnil
    rw [Read_empty_buf]
    exact ⟨⟨⟨m, hm⟩, hal⟩, by simp, by simp, by simp⟩
  · have hpos : 0 < b.length := List.length_pos.mpr hnil
    cases he : s.eof with
    | true =>
      rw [Read_eof P s b hnil he]
      exact ⟨⟨⟨m, hm⟩, hal⟩, by simp, by simp, by simp⟩
    | false =>
      by_cases hlt : b.length < 16
      · rw [Read_small P s b hpos hlt he]
        exact ⟨⟨⟨m, hm⟩, hal⟩, by simp, by simp, by simp⟩
      · have hb : 16 ≤ b.length := by omega
        by_cases hr : s.reader = []
        · rw [Read_drained P s b m hb he hm hr]
          exact ⟨⟨⟨m, initMode_of_mode P _ _ rfl⟩, hal⟩, by simp, by simp, by simp⟩
        · by_cases hle : b.length / 16 * 16 ≤ s.reader.length
          · rw [Read_whole P s b m hb he hm hle]
            refine ⟨⟨⟨_, initMode_of_mode P _ _ rfl⟩, ?_⟩, by simp, by simp, by simp⟩
            show (s.reader.drop (b.length / 16 * 16)).length % 16 = 0
            rw [List.length_drop]; omega
          · rw [Read_short P s b m hb he hm (by omega) hr hal]
            exact ⟨⟨⟨_, initMode_of_mode P _ _ rfl⟩, rfl⟩, by simp, by simp, by simp⟩

theorem Aligned_afterPulls (P : Primitives) :
    ∀ (bufs : List (List Byte)) (s : CBCReader), Aligned P s →
      Aligned P (afterPulls P s bufs) := by
  intro bufs
  induction bufs with
  | nil => intro s hs; exact hs
  | cons b bs ih =>
    intro s hs
    exact ih _ (Aligned_Read P s b hs).1

/-- C10: when the second entry of a protected archive passes the test of line
125 and all its bytes are delivered, the read of the 48-byte header is not
short, and the reader built on an accepted header has a 16-byte seed and a
stream of `size - 48` bytes, a positive multiple of 16; no pull on that reader,
after any sequence of pulls, fails with `invalid padding`, with
`invalid iv size` or with a key size error. -/
theorem blob_check_protects (P : Primitives) (hsha : DigestSize P) (key blob : List Byte)
    (second : Header) (hsize : second.Size = blob.length)
    (hcheck : blobEntryRejected true second = false) :
    (ReadFull blob 48).2.2.1 = 48
    ∧ (ReadFull blob 48).2.2.2 = none
    ∧ ∀ r, openProtected key blob = .ok r →
        r.iv.length = 16
        ∧ r.reader.length = blob.length - 48
        ∧ 0 < r.reader.length
        ∧ r.reader.length % 16 = 0
        ∧ ∀ (bufs : List (List Byte)) (buf : List Byte),
            (Read P (afterPulls P r bufs) buf).err ≠ some Err.invalidPadding
            ∧ (Read P (afterPulls P r bufs) buf).err ≠ some Err.invalidIVSize
            ∧ (Read P (afterPulls P r bufs) buf).err ≠ some Err.keySize := by
  have hrej := mt (blobEntryRejected_iff true second).mpr (by simp [hcheck])
  have hge : (1024 : Int) ≤ second.Size := by
    by_contra h
    exact hrej (Or.inl (by omega))
  have hdvd : (16 : Int) ∣ second.Size := by
    by_contra h
    exact hrej (Or.inr ⟨rfl, h⟩)
  have hlen : 1024 ≤ blob.length := by omega
  have hal : blob.length % 16 = 0 := by omega
  have htake : (blob.take 48).length = 48 := by rw [List.length_take]; omega
  refine ⟨?_, ?_, ?_⟩
  · simp only [ReadFull, htake]
  · simp only [ReadFull, htake]
    simp
  · intro r hr
    by_cases hhead : 48 ≤ blob.length ∧ blob.take 16 = secureMagic
    · rw [openProtected_ok key blob hhead.1 hhead.2] at hr
      cases hr
      have hivl : ((blob.drop 32).take 16).length = 16 := by
        rw [List.length_take, List.length_drop]; omega
      have hrl : (blob.drop 48).length = blob.length - 48 := List.length_drop _ _
      have hA : Aligned P (fresh key ((blob.drop 32).take 16) (blob.drop 48)) :=
        ⟨initMode_ok P hsha _ (Or.inr (by show 16 ≤ ((blob.drop 32).take 16).length; omega)),
          by show (blob.drop 48).length % 16 = 0; omega⟩
      refine ⟨hivl, hrl, ?_, ?_, ?_⟩
      · show 0 < (blob.drop 48).length
        omega
      · show (blob.drop 48).length % 16 = 0
        omega
      · intro bufs buf
        exact (Aligned_Read P _ buf (Aligned_afterPulls P bufs _ hA)).2
    · rw [openProtected_error key blob hhead] at hr
      cases hr

theorem sampleBlob_padded_length : (sampleBlob ++ List.replicate 960 5).length = 1024 := by
  rw [List.length_append, List.length_replicate]
  rfl

theorem sampleBlob_padded_magic : (sampleBlob ++ List.replicate 960 5).take 16 = secureMagic := by
  rw [List.take_append_of_le_length (by decide)]
  decide

/-- Witness of `blob_check_protects`: a blob of 1024 bytes with a valid header. -/
theorem blob_check_protects_witness :
    DigestSize toyPrimitives
    ∧ (⟨[], 1024⟩ : Header).Size = (sampleBlob ++ List.replicate 960 5).length
    ∧ blobEntryRejected true ⟨[], 1024⟩ = false
    ∧ (∃ r, openProtected [1] (sampleBlob ++ List.replicate 960 5) = .ok r)
    ∧ (ReadFull (sampleBlob ++ List.replicate 960 5) 48).2.2.2 = none :=
  ⟨fun _ => rfl, by rw [sampleBlob_padded_length]; rfl, by decide,
    ⟨_, openProtected_ok [1] (sampleBlob ++ List.replicate 960 5)
      (by rw [sampleBlob_padded_length]; decide) sampleBlob_padded_magic⟩,
    (blob_check_protects toyPrimitives (fun _ => rfl) [1]
      (sampleBlob ++ List.replicate 960 5) ⟨[], 1024⟩
      (by rw [sampleBlob_padded_length]; rfl) (by decide)).2.1⟩

end Habe
